import Mathlib

/-!
Verification of the serial scale poller (`docs/reference/readscale.py`).

The script polls a serial scale: it sends a fixed command burst, collects
reply lines in a timed window, parses the most recent numeric reading, and
prints it when it differs from the last printed value.

The embedding below models:
* the character classes of
  `RE_WEIGHT = re.compile(r'([+-]?\d+(?:\.\d+)?)\s*([a-zA-Z%]+)?')` and of
  `str.strip()`: `\d` is the full Unicode decimal-digit set (category Nd)
  and `\s` the full Python whitespace set, given as code-point range tables,
  because a decoded byte line can carry any Unicode character;
* `bytes.decode(errors="ignore")` — UTF-8 decoding that silently drops
  ill-formed byte sequences (maximal-subpart skipping, as CPython does);
* `RE_WEIGHT.search` — leftmost match of the pattern as a substring search;
* `read_window` — processing each line returned by `ser.readline()` during
  the window, in arrival order (time is abstracted: the window is the finite
  list of read results obtained before the deadline);
* the per-cycle report/update step of `main` and the loop across cycles;
* `send_cmd` and the command burst of `main`, as a trace of write and sleep
  events so that the transmitted bytes and the inserted delays are visible.
-/

/-- The code points matched by Python regex `\d` on a `str` pattern: the
Unicode decimal digits, category Nd (Unicode 14.0, CPython's database), as
closed code-point ranges. -/
def isDigitCode (n : Nat) : Bool :=
  (0x30 ≤ n && n ≤ 0x39) ||
  (0x660 ≤ n && n ≤ 0x669) ||
  (0x6F0 ≤ n && n ≤ 0x6F9) ||
  (0x7C0 ≤ n && n ≤ 0x7C9) ||
  (0x966 ≤ n && n ≤ 0x96F) ||
  (0x9E6 ≤ n && n ≤ 0x9EF) ||
  (0xA66 ≤ n && n ≤ 0xA6F) ||
  (0xAE6 ≤ n && n ≤ 0xAEF) ||
  (0xB66 ≤ n && n ≤ 0xB6F) ||
  (0xBE6 ≤ n && n ≤ 0xBEF) ||
  (0xC66 ≤ n && n ≤ 0xC6F) ||
  (0xCE6 ≤ n && n ≤ 0xCEF) ||
  (0xD66 ≤ n && n ≤ 0xD6F) ||
  (0xDE6 ≤ n && n ≤ 0xDEF) ||
  (0xE50 ≤ n && n ≤ 0xE59) ||
  (0xED0 ≤ n && n ≤ 0xED9) ||
  (0xF20 ≤ n && n ≤ 0xF29) ||
  (0x1040 ≤ n && n ≤ 0x1049) ||
  (0x1090 ≤ n && n ≤ 0x1099) ||
  (0x17E0 ≤ n && n ≤ 0x17E9) ||
  (0x1810 ≤ n && n ≤ 0x1819) ||
  (0x1946 ≤ n && n ≤ 0x194F) ||
  (0x19D0 ≤ n && n ≤ 0x19D9) ||
  (0x1A80 ≤ n && n ≤ 0x1A89) ||
  (0x1A90 ≤ n && n ≤ 0x1A99) ||
  (0x1B50 ≤ n && n ≤ 0x1B59) ||
  (0x1BB0 ≤ n && n ≤ 0x1BB9) ||
  (0x1C40 ≤ n && n ≤ 0x1C49) ||
  (0x1C50 ≤ n && n ≤ 0x1C59) ||
  (0xA620 ≤ n && n ≤ 0xA629) ||
  (0xA8D0 ≤ n && n ≤ 0xA8D9) ||
  (0xA900 ≤ n && n ≤ 0xA909) ||
  (0xA9D0 ≤ n && n ≤ 0xA9D9) ||
  (0xA9F0 ≤ n && n ≤ 0xA9F9) ||
  (0xAA50 ≤ n && n ≤ 0xAA59) ||
  (0xABF0 ≤ n && n ≤ 0xABF9) ||
  (0xFF10 ≤ n && n ≤ 0xFF19) ||
  (0x104A0 ≤ n && n ≤ 0x104A9) ||
  (0x10D30 ≤ n && n ≤ 0x10D39) ||
  (0x11066 ≤ n && n ≤ 0x1106F) ||
  (0x110F0 ≤ n && n ≤ 0x110F9) ||
  (0x11136 ≤ n && n ≤ 0x1113F) ||
  (0x111D0 ≤ n && n ≤ 0x111D9) ||
  (0x112F0 ≤ n && n ≤ 0x112F9) ||
  (0x11450 ≤ n && n ≤ 0x11459) ||
  (0x114D0 ≤ n && n ≤ 0x114D9) ||
  (0x11650 ≤ n && n ≤ 0x11659) ||
  (0x116C0 ≤ n && n ≤ 0x116C9) ||
  (0x11730 ≤ n && n ≤ 0x11739) ||
  (0x118E0 ≤ n && n ≤ 0x118E9) ||
  (0x11950 ≤ n && n ≤ 0x11959) ||
  (0x11C50 ≤ n && n ≤ 0x11C59) ||
  (0x11D50 ≤ n && n ≤ 0x11D59) ||
  (0x11DA0 ≤ n && n ≤ 0x11DA9) ||
  (0x16A60 ≤ n && n ≤ 0x16A69) ||
  (0x16AC0 ≤ n && n ≤ 0x16AC9) ||
  (0x16B50 ≤ n && n ≤ 0x16B59) ||
  (0x1D7CE ≤ n && n ≤ 0x1D7FF) ||
  (0x1E140 ≤ n && n ≤ 0x1E149) ||
  (0x1E2F0 ≤ n && n ≤ 0x1E2F9) ||
  (0x1E950 ≤ n && n ≤ 0x1E959) ||
  (0x1FBF0 ≤ n && n ≤ 0x1FBF9)

/-- Python regex `\d`: a Unicode decimal digit (category Nd), not only
ASCII `0-9`. -/
def isDigitChar (c : Char) : Bool := isDigitCode c.toNat

/-- A sign character, regex `[+-]`. -/
def isSignChar (c : Char) : Bool := c = '+' || c = '-'

/-- The code points Python treats as whitespace: the common set behind
`str.strip()`, `str.isspace()` and regex `\s` on a `str` pattern. -/
def isSpaceCode (n : Nat) : Bool :=
  (0x9 ≤ n && n ≤ 0xD) ||
  (0x1C ≤ n && n ≤ 0x20) ||
  n = 0x85 || n = 0xA0 || n = 0x1680 ||
  (0x2000 ≤ n && n ≤ 0x200A) ||
  n = 0x2028 || n = 0x2029 || n = 0x202F || n = 0x205F || n = 0x3000

/-- Whitespace as recognized by Python regex `\s` and stripped by
`str.strip()` (the two use the same set). -/
def isSpaceChar (c : Char) : Bool := isSpaceCode c.toNat

/-- A unit character, regex `[a-zA-Z%]` — the literal ASCII ranges
`a`-`z` (0x61-0x7A), `A`-`Z` (0x41-0x5A) and `%` (0x25). -/
def isUnitChar (c : Char) : Bool :=
  (0x61 ≤ c.toNat && c.toNat ≤ 0x7A) || (0x41 ≤ c.toNat && c.toNat ≤ 0x5A) ||
    c.toNat = 0x25

/-- Python `str.strip()`: remove whitespace from both ends. -/
def pyStrip (s : List Char) : List Char :=
  ((s.dropWhile isSpaceChar).reverse.dropWhile isSpaceChar).reverse

/-- A UTF-8 continuation byte, `0x80..0xBF`. -/
def isContByte (b : Nat) : Bool := 0x80 ≤ b && b < 0xC0

/-- The admissible first continuation byte after a three-byte lead `b`
(`0xE0` excludes overlong forms, `0xED` excludes surrogates). -/
def cont3Ok (b c1 : Nat) : Bool :=
  if b = 0xE0 then 0xA0 ≤ c1 && c1 < 0xC0
  else if b = 0xED then 0x80 ≤ c1 && c1 < 0xA0
  else isContByte c1

/-- The admissible first continuation byte after a four-byte lead `b`
(`0xF0` excludes overlong forms, `0xF4` caps the range at `U+10FFFF`). -/
def cont4Ok (b c1 : Nat) : Bool :=
  if b = 0xF0 then 0x90 ≤ c1 && c1 < 0xC0
  else if b = 0xF4 then 0x80 ≤ c1 && c1 < 0x90
  else isContByte c1

/-- The worker for `decodeIgnore`, peeling one UTF-8 sequence (or one
ill-formed byte group) per step. `fuel` only bounds the recursion depth; it
starts at the byte count and every step consumes at least one byte, so it
never runs out before the input does. -/
def decodeIgnoreGo : Nat → List Nat → List Char
  | 0, _ => []
  | _ + 1, [] => []
  | fuel + 1, b :: r =>
    if b < 0x80 then Char.ofNat b :: decodeIgnoreGo fuel r
    else if b < 0xC2 then decodeIgnoreGo fuel r
    else if b < 0xE0 then
      match r with
      | [] => []
      | c1 :: r1 =>
        if isContByte c1 then
          Char.ofNat ((b - 0xC0) * 0x40 + (c1 - 0x80)) :: decodeIgnoreGo fuel r1
        else decodeIgnoreGo fuel r
    else if b < 0xF0 then
      match r with
      | [] => []
      | c1 :: r1 =>
        if cont3Ok b c1 then
          match r1 with
          | [] => []
          | c2 :: r2 =>
            if isContByte c2 then
              Char.ofNat ((b - 0xE0) * 0x1000 + (c1 - 0x80) * 0x40 + (c2 - 0x80))
                :: decodeIgnoreGo fuel r2
            else decodeIgnoreGo fuel r1
        else decodeIgnoreGo fuel r
    else if b < 0xF5 then
      match r with
      | [] => []
      | c1 :: r1 =>
        if cont4Ok b c1 then
          match r1 with
          | [] => []
          | c2 :: r2 =>
            if isContByte c2 then
              match r2 with
              | [] => []
              | c3 :: r3 =>
                if isContByte c3 then
                  Char.ofNat ((b - 0xF0) * 0x40000 + (c1 - 0x80) * 0x1000 +
                      (c2 - 0x80) * 0x40 + (c3 - 0x80)) :: decodeIgnoreGo fuel r3
                else decodeIgnoreGo fuel r2
            else decodeIgnoreGo fuel r1
        else decodeIgnoreGo fuel r
    else decodeIgnoreGo fuel r

/-- Python `bytes.decode(errors="ignore")`: UTF-8 decoding where every
ill-formed subsequence is dropped silently (the maximal subpart of an
ill-formed sequence is skipped, as in CPython; a truncated sequence at the
end of the data is likewise dropped). -/
def decodeIgnore (bs : List Nat) : List Char := decodeIgnoreGo bs.length bs

/-- Match `\d+(?:\.\d+)?` at the head of `cs`: the maximal digit run,
optionally followed by a dot and a further nonempty maximal digit run.
Returns the matched text and the remaining characters, or `none` when `cs`
does not start with a digit. -/
def numCore (cs : List Char) : Option (List Char × List Char) :=
  let ds := cs.takeWhile isDigitChar
  if ds = [] then none
  else
    match cs.dropWhile isDigitChar with
    | '.' :: r2 =>
      let fs := r2.takeWhile isDigitChar
      if fs = [] then some (ds, '.' :: r2)
      else some (ds ++ '.' :: fs, r2.dropWhile isDigitChar)
    | r1 => some (ds, r1)

/-- Match group 1 of `RE_WEIGHT`, `[+-]?\d+(?:\.\d+)?`, at the head of `cs`.
The optional sign is taken greedily; when a sign is present but not followed
by a digit the regex engine backtracks to the empty sign, which also fails
because a sign character is not a digit. -/
def numAt (cs : List Char) : Option (List Char × List Char) :=
  match cs with
  | [] => none
  | c :: r =>
    if isSignChar c then
      match numCore r with
      | some (n, rest) => some (c :: n, rest)
      | none => none
    else numCore cs

/-- Match the whole pattern `([+-]?\d+(?:\.\d+)?)\s*([a-zA-Z%]+)?` anchored
at the head of `cs`, returning the two groups. Group 2 is returned as a
character list; the empty list stands for an absent group, which the caller
turns into `""` (the code's `u or ""`). -/
def matchAt (cs : List Char) : Option (List Char × List Char) :=
  match numAt cs with
  | none => none
  | some (g1, r) => some (g1, (r.dropWhile isSpaceChar).takeWhile isUnitChar)

/-- `RE_WEIGHT.search`: try the pattern at each position from the left and
return the groups of the leftmost match, or `none` when no position matches. -/
def reSearch : List Char → Option (List Char × List Char)
  | [] => none
  | c :: rest =>
    match matchAt (c :: rest) with
    | some g => some g
    | none => reSearch rest

/-- A parsed observation: numeric text `w`, unit text `u` (empty when the
unit group is absent), and the line `raw` the tuple was built from —
`readings.append((w, u or "", raw))`. -/
structure Reading where
  w : List Char
  u : List Char
  raw : List Char
  deriving DecidableEq, Repr

/-- The parse step applied to a decoded, stripped, nonempty line:
`m = RE_WEIGHT.search(raw); if m: w, u = m.groups(); append (w, u or "", raw)`. -/
def parseLine (raw : List Char) : Option Reading :=
  match reSearch raw with
  | none => none
  | some (w, u) => some ⟨w, u, raw⟩

/-- Processing of one decoded line inside `read_window`:
strip it, skip it when empty, otherwise run the parse step. -/
def processDecoded (s : List Char) : Option Reading :=
  let raw := pyStrip s
  if raw = [] then none else parseLine raw

/-- Processing of one `ser.readline()` result inside `read_window`: an empty
read is skipped (`if not line: continue`), otherwise the bytes are decoded
with errors ignored and the decoded text is processed. -/
def processRawLine (bs : List Nat) : Option Reading :=
  if bs = [] then none else processDecoded (decodeIgnore bs)

/-- `read_window`: the readings produced, in arrival order, from the sequence
of `ser.readline()` results obtained before the window deadline. -/
def readWindow (lines : List (List Nat)) : List Reading :=
  lines.filterMap processRawLine

/-- An observable action on the serial connection or the clock: a write of a
byte string (`ser.write`) or a blocking pause in seconds (`time.sleep`). -/
inductive SerialEv where
  | write (bs : List Nat) : SerialEv
  | sleep (d : ℚ) : SerialEv
  deriving DecidableEq, Repr

/-- `CMD = b"@P<CR><LF>"`: the bytes of the ten-character literal text, not
`b"@P\r\n"`. -/
def CMD : List Nat := "@P<CR><LF>".data.map Char.toNat

/-- `send_cmd(ser, cmd, char_delay_s, line_delay_s)`: write the command's
bytes one at a time (`ser.write(bytes([b]))`), sleeping `char_delay_s` after
each byte, then sleep `line_delay_s` once. -/
def send_cmd (cmd : List Nat) (charDelay lineDelay : ℚ) : List SerialEv :=
  (cmd.flatMap fun b => [SerialEv.write [b], SerialEv.sleep charDelay]) ++
    [SerialEv.sleep lineDelay]

/-- The burst of `main`: `for _ in range(REPEATS_PER_BURST): send_cmd(...)`. -/
def burst (n : Nat) (cmd : List Nat) (charDelay lineDelay : ℚ) : List SerialEv :=
  (List.range n).flatMap fun _ => send_cmd cmd charDelay lineDelay

/-- The byte strings written by a trace, in order. -/
def writesOf (evs : List SerialEv) : List (List Nat) :=
  evs.filterMap fun e =>
    match e with
    | SerialEv.write bs => some bs
    | SerialEv.sleep _ => none

/-- The total duration of the sleeps deliberately inserted by a trace. -/
def totalSleep (evs : List SerialEv) : ℚ :=
  (evs.map fun e =>
    match e with
    | SerialEv.write _ => 0
    | SerialEv.sleep d => d).sum

/-- The console line printed for a reading:
`print(f"{ts}  {w} {u}   (raw: {raw})")`, with `ts` the ambient timestamp. -/
def consoleLine (ts : List Char) (r : Reading) : List Char :=
  ts ++ "  ".data ++ r.w ++ " ".data ++ r.u ++ "   (raw: ".data ++ r.raw ++ ")".data

/-- Step 3 of one iteration of `main`'s loop, after `read_window` returned
`readings`: when `readings` is nonempty take `readings[-1]`; print it and set
`last_weight` to its numeric text when `ONLY_PRINT_ON_CHANGE` is off or the
text differs from `last_weight`. Returns the new `last_weight` and the
readings emitted to the console (zero or one). -/
def stepCycle (onlyOnChange : Bool) (last : Option (List Char))
    (readings : List Reading) : Option (List Char) × List Reading :=
  match readings.getLast? with
  | none => (last, [])
  | some r =>
    if ¬ onlyOnChange = true ∨ some r.w ≠ last then (some r.w, [r]) else (last, [])

/-- The loop of `main` over a finite run of cycles: each element of `cycles`
is the reading list one `read_window` call returned; the result is the final
`last_weight` and all readings emitted to the console, in order. -/
def runPoller (onlyOnChange : Bool) :
    Option (List Char) → List (List Reading) → Option (List Char) × List Reading
  | last, [] => (last, [])
  | last, c :: cs =>
    let s := stepCycle onlyOnChange last c
    let t := runPoller onlyOnChange s.1 cs
    (t.1, s.2 ++ t.2)

/-- The same run, recorded cycle by cycle: for each cycle, `last_weight` on
entry, the readings emitted, and `last_weight` on exit. -/
def pollTrace (onlyOnChange : Bool) :
    Option (List Char) → List (List Reading) →
      List (Option (List Char) × List Reading × Option (List Char))
  | _, [] => []
  | last, c :: cs =>
    let s := stepCycle onlyOnChange last c
    (last, s.2, s.1) :: pollTrace onlyOnChange s.1 cs

theorem signChar_cases {c : Char} (h : isSignChar c = true) : c = '+' ∨ c = '-' := by
  simpa [isSignChar] using h

theorem digit_not_sign {c : Char} (h : isDigitChar c = true) : isSignChar c = false := by
  cases hs : isSignChar c with
  | false => rfl
  | true => rcases signChar_cases hs with rfl | rfl <;> exact absurd h (by decide)

theorem digit_ne_dot {c : Char} (h : isDigitChar c = true) : c ≠ '.' := by
  rintro rfl; exact absurd h (by decide)

theorem space_not_digit {c : Char} (h : isSpaceChar c = true) : isDigitChar c = false := by
  cases hd : isDigitChar c with
  | false => rfl
  | true =>
    exfalso
    have h1 : isSpaceCode c.toNat = true := h
    have h2 : isDigitCode c.toNat = true := hd
    simp only [isSpaceCode, isDigitCode, Bool.or_eq_true, Bool.and_eq_true,
      decide_eq_true_eq] at h1 h2
    omega

theorem space_ne_dot {c : Char} (h : isSpaceChar c = true) : c ≠ '.' := by
  rintro rfl; exact absurd h (by decide)

theorem unit_not_digit {c : Char} (h : isUnitChar c = true) : isDigitChar c = false := by
  cases hd : isDigitChar c with
  | false => rfl
  | true =>
    exfalso
    have h2 : isDigitCode c.toNat = true := hd
    simp only [isUnitChar, isDigitCode, Bool.or_eq_true, Bool.and_eq_true,
      decide_eq_true_eq] at h h2
    omega

theorem unit_ne_dot {c : Char} (h : isUnitChar c = true) : c ≠ '.' := by
  rintro rfl; exact absurd h (by decide)

theorem unit_not_space {c : Char} (h : isUnitChar c = true) : isSpaceChar c = false := by
  cases hs : isSpaceChar c with
  | false => rfl
  | true =>
    exfalso
    have h2 : isSpaceCode c.toNat = true := hs
    simp only [isUnitChar, isSpaceCode, Bool.or_eq_true, Bool.and_eq_true,
      decide_eq_true_eq] at h h2
    omega

theorem takeWhile_dropWhile_append {α : Type} {p : α → Bool} {xs ys : List α}
    (h1 : ∀ x ∈ xs, p x = true) (h2 : ∀ y, ys.head? = some y → p y = false) :
    (xs ++ ys).takeWhile p = xs ∧ (xs ++ ys).dropWhile p = ys := by
  induction xs with
  | nil =>
    simp only [List.nil_append]
    cases ys with
    | nil => simp
    | cons y t =>
      have hy := h2 y (by simp)
      simp [List.takeWhile_cons, List.dropWhile_cons, hy]
  | cons x xs ih =>
    have hx := h1 x (by simp)
    have hrec := ih fun a ha => h1 a (by simp [ha])
    simp [List.takeWhile_cons, List.dropWhile_cons, hx, hrec.1, hrec.2]

theorem takeWhile_all {α : Type} {p : α → Bool} {xs : List α}
    (h1 : ∀ x ∈ xs, p x = true) : xs.takeWhile p = xs := by
  have := @takeWhile_dropWhile_append α p xs [] h1 (by intro y hy; simp at hy)
  simpa using this.1

theorem dropWhile_all {α : Type} {p : α → Bool} {xs : List α}
    (h1 : ∀ x ∈ xs, p x = true) : xs.dropWhile p = [] := by
  have := @takeWhile_dropWhile_append α p xs [] h1 (by intro y hy; simp at hy)
  simpa using this.2

theorem head_ws_us_not_digit {ws us : List Char}
    (hws : ∀ c ∈ ws, isSpaceChar c = true) (hus : ∀ c ∈ us, isUnitChar c = true) :
    ∀ y, (ws ++ us).head? = some y → isDigitChar y = false := by
  intro y hy
  cases ws with
  | cons w t =>
    simp only [List.cons_append, List.head?_cons, Option.some.injEq] at hy
    exact hy ▸ space_not_digit (hws w (by simp))
  | nil =>
    cases us with
    | nil => simp at hy
    | cons u t =>
      simp only [List.nil_append, List.head?_cons, Option.some.injEq] at hy
      exact hy ▸ unit_not_digit (hus u (by simp))

theorem head_ws_us_ne_dot {ws us : List Char}
    (hws : ∀ c ∈ ws, isSpaceChar c = true) (hus : ∀ c ∈ us, isUnitChar c = true) :
    ∀ y, (ws ++ us).head? = some y → y ≠ '.' := by
  intro y hy
  cases ws with
  | cons w t =>
    simp only [List.cons_append, List.head?_cons, Option.some.injEq] at hy
    exact hy ▸ space_ne_dot (hws w (by simp))
  | nil =>
    cases us with
    | nil => simp at hy
    | cons u t =>
      simp only [List.nil_append, List.head?_cons, Option.some.injEq] at hy
      exact hy ▸ unit_ne_dot (hus u (by simp))

theorem numCore_structured {ds frac ws us : List Char}
    (hds : ds ≠ []) (hdall : ∀ c ∈ ds, isDigitChar c = true)
    (hfrac : frac = [] ∨ ∃ fs, frac = '.' :: fs ∧ fs ≠ [] ∧ ∀ c ∈ fs, isDigitChar c = true)
    (hws : ∀ c ∈ ws, isSpaceChar c = true)
    (hus : ∀ c ∈ us, isUnitChar c = true) :
    numCore (ds ++ (frac ++ (ws ++ us))) = some (ds ++ frac, ws ++ us) := by
  have h2 : ∀ y, (frac ++ (ws ++ us)).head? = some y → isDigitChar y = false := by
    rcases hfrac with rfl | ⟨fs, rfl, hfs, hfall⟩
    · simpa using head_ws_us_not_digit hws hus
    · intro y hy
      simp only [List.cons_append, List.head?_cons, Option.some.injEq] at hy
      subst hy; decide
  have key := takeWhile_dropWhile_append (p := isDigitChar) hdall h2
  simp only [numCore, key.1, key.2]
  rw [if_neg hds]
  rcases hfrac with rfl | ⟨fs, rfl, hfs, hfall⟩
  · simp only [List.nil_append]
    split
    · rename_i r2 heq
      exact absurd (head_ws_us_ne_dot hws hus '.' (by rw [heq]; rfl)) (by simp)
    · simp
  · simp only [List.cons_append]
    have key2 := takeWhile_dropWhile_append (p := isDigitChar) hfall
      (head_ws_us_not_digit hws hus)
    simp only [key2.1, key2.2]
    rw [if_neg hfs]

theorem matchAt_structured {sign ds frac ws us : List Char}
    (hsign : sign = [] ∨ sign = ['+'] ∨ sign = ['-'])
    (hds : ds ≠ []) (hdall : ∀ c ∈ ds, isDigitChar c = true)
    (hfrac : frac = [] ∨ ∃ fs, frac = '.' :: fs ∧ fs ≠ [] ∧ ∀ c ∈ fs, isDigitChar c = true)
    (hws : ∀ c ∈ ws, isSpaceChar c = true)
    (hus : ∀ c ∈ us, isUnitChar c = true) :
    matchAt (sign ++ (ds ++ (frac ++ (ws ++ us)))) = some (sign ++ (ds ++ frac), us) := by
  have hcore := numCore_structured hds hdall hfrac hws hus
  have htail : ((ws ++ us).dropWhile isSpaceChar).takeWhile isUnitChar = us := by
    have hd := @takeWhile_dropWhile_append Char isSpaceChar ws us hws
      (fun y hy => by
        cases us with
        | nil => simp at hy
        | cons u t =>
          simp only [List.head?_cons, Option.some.injEq] at hy
          exact hy ▸ unit_not_space (hus u (by simp)))
    rw [hd.2, takeWhile_all hus]
  rcases hsign with rfl | rfl | rfl
  · simp only [List.nil_append]
    obtain ⟨d, dt, rfl⟩ := List.exists_cons_of_ne_nil hds
    have hd : isDigitChar d = true := hdall d (by simp)
    simp only [List.cons_append, numAt, matchAt, digit_not_sign hd, Bool.false_eq_true,
      if_false]
    rw [← List.cons_append, hcore]
    simp [htail]
  · simp only [List.cons_append, List.nil_append, matchAt, numAt]
    rw [if_pos (by decide)]
    rw [hcore]
    simp [htail]
  · simp only [List.cons_append, List.nil_append, matchAt, numAt]
    rw [if_pos (by decide)]
    rw [hcore]
    simp [htail]

theorem reSearch_of_matchAt {cs : List Char} {g : List Char × List Char}
    (hne : cs ≠ []) (h : matchAt cs = some g) : reSearch cs = some g := by
  cases cs with
  | nil => exact absurd rfl hne
  | cons c r => simp only [reSearch, h]

theorem numCore_isSome_of_digit {c : Char} {r : List Char} (h : isDigitChar c = true) :
    (numCore (c :: r)).isSome = true := by
  simp only [numCore, List.takeWhile_cons, h, if_true]
  rw [if_neg (by simp)]
  split
  · split <;> simp
  · simp

theorem matchAt_isSome_of_digit {c : Char} {r : List Char} (h : isDigitChar c = true) :
    (matchAt (c :: r)).isSome = true := by
  have hs := numCore_isSome_of_digit (r := r) h
  simp only [matchAt, numAt, digit_not_sign h, Bool.false_eq_true, if_false]
  obtain ⟨g, hg⟩ := Option.isSome_iff_exists.mp hs
  rw [hg]
  cases g
  simp

theorem reSearch_isSome_of_digit {cs : List Char} (h : ∃ c ∈ cs, isDigitChar c = true) :
    (reSearch cs).isSome = true := by
  induction cs with
  | nil => simp at h
  | cons a t ih =>
    by_cases ha : isDigitChar a = true
    · have hm := matchAt_isSome_of_digit (r := t) ha
      obtain ⟨g, hg⟩ := Option.isSome_iff_exists.mp hm
      simp only [reSearch, hg]
      rfl
    · obtain ⟨c, hc, hcd⟩ := h
      rcases List.mem_cons.mp hc with rfl | hct
      · exact absurd hcd ha
      · have ht := ih ⟨c, hct, hcd⟩
        simp only [reSearch]
        cases hm : matchAt (a :: t) with
        | some g => rfl
        | none => simpa using ht

theorem takeWhile_nil_of_none {α : Type} {p : α → Bool} {l : List α}
    (h : ∀ x ∈ l, p x = false) : l.takeWhile p = [] := by
  cases l with
  | nil => rfl
  | cons a t => simp [List.takeWhile_cons, h a (by simp)]

theorem numCore_none_of_no_digit {cs : List Char} (h : ∀ c ∈ cs, isDigitChar c = false) :
    numCore cs = none := by
  simp [numCore, takeWhile_nil_of_none h]

theorem matchAt_none_of_no_digit {cs : List Char} (h : ∀ c ∈ cs, isDigitChar c = false) :
    matchAt cs = none := by
  cases cs with
  | nil => rfl
  | cons a t =>
    have ht : ∀ c ∈ t, isDigitChar c = false := fun c hc => h c (by simp [hc])
    simp only [matchAt, numAt]
    by_cases hs : isSignChar a = true
    · rw [if_pos hs, numCore_none_of_no_digit ht]
    · rw [if_neg hs, numCore_none_of_no_digit h]

theorem reSearch_none_of_no_digit {cs : List Char} (h : ∀ c ∈ cs, isDigitChar c = false) :
    reSearch cs = none := by
  induction cs with
  | nil => rfl
  | cons a t ih =>
    have ht := ih fun c hc => h c (by simp [hc])
    simp only [reSearch, matchAt_none_of_no_digit h, ht]

theorem mem_dropWhile_of_mem {α : Type} {p : α → Bool} {x : α} {l : List α}
    (hx : x ∈ l) (hpx : p x = false) : x ∈ l.dropWhile p := by
  induction l with
  | nil => cases hx
  | cons a t ih =>
    rw [List.dropWhile_cons]
    by_cases hp : p a = true
    · rw [if_pos hp]
      rcases List.mem_cons.mp hx with rfl | hmem
      · exact absurd hp (by simp [hpx])
      · exact ih hmem
    · rw [if_neg hp]; exact hx

theorem mem_of_mem_dropWhile {α : Type} {p : α → Bool} {x : α} {l : List α}
    (hx : x ∈ l.dropWhile p) : x ∈ l := by
  induction l with
  | nil => exact hx
  | cons a t ih =>
    rw [List.dropWhile_cons] at hx
    by_cases hp : p a = true
    · rw [if_pos hp] at hx; exact List.mem_cons_of_mem a (ih hx)
    · rw [if_neg hp] at hx; exact hx

theorem mem_pyStrip {x : Char} {s : List Char} (hx : x ∈ s) (hp : isSpaceChar x = false) :
    x ∈ pyStrip s := by
  unfold pyStrip
  rw [List.mem_reverse]
  exact mem_dropWhile_of_mem (List.mem_reverse.mpr (mem_dropWhile_of_mem hx hp)) hp

theorem mem_of_mem_pyStrip {x : Char} {s : List Char} (hx : x ∈ pyStrip s) : x ∈ s := by
  unfold pyStrip at hx
  rw [List.mem_reverse] at hx
  have h1 := mem_of_mem_dropWhile hx
  rw [List.mem_reverse] at h1
  exact mem_of_mem_dropWhile h1

theorem send_cmd_cons (b : Nat) (bs : List Nat) (c l : ℚ) :
    send_cmd (b :: bs) c l =
      SerialEv.write [b] :: SerialEv.sleep c :: send_cmd bs c l := by
  simp [send_cmd]

theorem writesOf_send_cmd (cmd : List Nat) (c l : ℚ) :
    writesOf (send_cmd cmd c l) = cmd.map fun b => [b] := by
  induction cmd with
  | nil => rfl
  | cons b bs ih =>
    rw [send_cmd_cons]
    simp only [writesOf, List.filterMap_cons] at *
    simp only [ih, List.map_cons]

theorem totalSleep_append (xs ys : List SerialEv) :
    totalSleep (xs ++ ys) = totalSleep xs + totalSleep ys := by
  simp [totalSleep]

theorem totalSleep_send_cmd (cmd : List Nat) (c l : ℚ) :
    totalSleep (send_cmd cmd c l) = cmd.length * c + l := by
  induction cmd with
  | nil => simp [send_cmd, totalSleep]
  | cons b bs ih =>
    rw [send_cmd_cons]
    simp only [totalSleep, List.map_cons, List.sum_cons, List.length_cons] at *
    rw [ih]
    push_cast
    ring

theorem totalSleep_burst (n : Nat) (cmd : List Nat) (c l : ℚ) :
    totalSleep (burst n cmd c l) = n * (cmd.length * c + l) := by
  induction n with
  | zero => simp [burst, totalSleep]
  | succ k ih =>
    have hsplit : burst (k + 1) cmd c l = burst k cmd c l ++ send_cmd cmd c l := by
      simp [burst, List.range_succ]
    rw [hsplit, totalSleep_append, ih, totalSleep_send_cmd]
    push_cast
    ring

theorem stepCycle_nil (flag : Bool) (last : Option (List Char)) :
    stepCycle flag last [] = (last, []) := rfl

theorem stepCycle_same_text (rs : List Reading) (w : List Char)
    (h : ∀ r, rs.getLast? = some r → r.w = w) :
    stepCycle true (some w) rs = (some w, []) := by
  cases hl : rs.getLast? with
  | none => simp [stepCycle, hl]
  | some r =>
    have hw := h r hl
    simp only [stepCycle, hl]
    rw [if_neg]
    rintro (hc | hc)
    · exact hc trivial
    · exact hc (by rw [hw])

theorem runPoller_steady (w : List Char) (cycles : List (List Reading))
    (h : ∀ c ∈ cycles, ∀ r, c.getLast? = some r → r.w = w) :
    runPoller true (some w) cycles = (some w, []) := by
  induction cycles with
  | nil => rfl
  | cons c cs ih =>
    have hstep := stepCycle_same_text c w (h c (by simp))
    have hrest := ih fun a ha => h a (by simp [ha])
    simp [runPoller, hstep, hrest]

theorem stepCycle_entry_props (last : Option (List Char)) (rs : List Reading) :
    (last ≠ none → (stepCycle true last rs).1 ≠ none) ∧
    ((stepCycle true last rs).1 ≠ last →
      (stepCycle true last rs).2 ≠ [] ∧
      ∀ v v', last = some v → (stepCycle true last rs).1 = some v' → v' ≠ v) ∧
    ((stepCycle true last rs).2 = [] → (stepCycle true last rs).1 = last) := by
  cases hl : rs.getLast? with
  | none => simp [stepCycle, hl]
  | some r =>
    simp only [stepCycle, hl]
    split
    · rename_i hc
      have hne : some r.w ≠ last := by
        rcases hc with hc | hc
        · exact absurd trivial hc
        · exact hc
      refine ⟨fun _ => by simp, fun _ => ⟨by simp, ?_⟩, by simp⟩
      intro v v' hv hv'
      simp only [Option.some.injEq] at hv'
      subst hv'
      intro hvv
      exact hne (by rw [hv, hvv])
    · exact ⟨fun h => h, fun hch => absurd rfl hch, fun _ => rfl⟩

theorem pollTrace_invariant (cycles : List (List Reading)) (init : Option (List Char))
    (entry : Option (List Char) × List Reading × Option (List Char))
    (hmem : entry ∈ pollTrace true init cycles) :
    (entry.1 ≠ none → entry.2.2 ≠ none) ∧
    (entry.2.2 ≠ entry.1 →
      entry.2.1 ≠ [] ∧ ∀ v v', entry.1 = some v → entry.2.2 = some v' → v' ≠ v) ∧
    (entry.2.1 = [] → entry.2.2 = entry.1) := by
  induction cycles generalizing init with
  | nil => simp [pollTrace] at hmem
  | cons c cs ih =>
    simp only [pollTrace, List.mem_cons] at hmem
    rcases hmem with rfl | hmem
    · exact stepCycle_entry_props init c
    · exact ih _ hmem

/-- The byte line `+012.50 kg`, the device reply of the C1 scenario. -/
def c1Reply1 : List Nat := "+012.50 kg".data.map Char.toNat

/-- The byte line `+013.00 kg`, the third device reply of the C1 scenario. -/
def c1Reply3 : List Nat := "+013.00 kg".data.map Char.toNat

/-- The C1 scenario run: three poll cycles, one reply line per cycle
(`+012.50 kg`, `+012.50 kg`, `+013.00 kg`), change-only reporting enabled,
no prior `last_weight`. -/
def c1Run : Option (List Char) × List Reading :=
  runPoller true none [readWindow [c1Reply1], readWindow [c1Reply1], readWindow [c1Reply3]]

/-- C1, counterexample: in the scenario of the claim the value texts printed
are not `012.50` and `013.00` — group 1 of `RE_WEIGHT` includes the sign, so
the reported value text of the first report is `+012.50`, not `012.50`. -/
theorem C1_counterexample :
    c1Run.2.map Reading.w ≠ ["012.50".data, "013.00".data] ∧
    c1Run.2.map (fun r => consoleLine [] r) ≠
      ["  012.50 kg   (raw: +012.50 kg)".data, "  013.00 kg   (raw: +013.00 kg)".data] := by
  decide

/-- C1, amended: for the run of three consecutive poll cycles in which the
device replies `+012.50 kg`, `+012.50 kg`, `+013.00 kg` (one reply per
cycle, change-only reporting enabled, no prior `last_weight`), exactly two
console reports are emitted, and the value text printed in them is
`+012.50` for the first and `+013.00` for the second (the sign is part of
regex group 1 and is printed). -/
theorem C1_scenario_two_reports :
    c1Run.2.length = 2 ∧
    c1Run.2.map Reading.w = ["+012.50".data, "+013.00".data] ∧
    c1Run.2.map Reading.u = ["kg".data, "kg".data] := by
  decide

/-- C2: the command transmitted by each burst is the literal ten-character
ASCII text `@P<CR><LF>` (`'@' 'P' '<' 'C' 'R' '>' '<' 'L' 'F' '>'`), not the
four bytes `'@' 'P' 0x0D 0x0A`, and `send_cmd` writes every byte of it as a
separate one-byte write, in order, whatever the configured delays are. -/
theorem C2_cmd_literal_text (c l : ℚ) :
    writesOf (send_cmd CMD c l) = CMD.map (fun b => [b]) ∧
    CMD = [64, 80, 60, 67, 82, 62, 60, 76, 70, 62] ∧
    CMD ≠ [64, 80, 13, 10] :=
  ⟨writesOf_send_cmd CMD c l, by decide, by decide⟩

/-- C9: a burst of `n` repeats of a `cmd.length`-byte command with
per-character delay `c` and per-command delay `l` deliberately inserts at
least `n * (cmd.length * c + l)` of sleep time (in fact exactly that). -/
theorem C9_burst_timing_lower_bound (n : Nat) (cmd : List Nat) (c l : ℚ) :
    totalSleep (burst n cmd c l) ≥ n * (cmd.length * c + l) :=
  ge_of_eq (totalSleep_burst n cmd c l)

/-- C3: for every line of the shape `sign ++ ds ++ frac ++ ws ++ us` — an
optional sign, a nonempty digit run, an optional `.`-plus-digits fraction,
optional whitespace, an optional unit token of letters or `%` — the parse
step produces a Reading whose numeric text is exactly `sign ++ ds ++ frac`
(the numeric portion), whose unit text is exactly `us` (empty when the unit
is absent), and whose raw field is the line itself, unchanged. -/
theorem C3_valid_line_parses_exactly (sign ds frac ws us : List Char)
    (hsign : sign = [] ∨ sign = ['+'] ∨ sign = ['-'])
    (hds : ds ≠ []) (hdall : ∀ c ∈ ds, isDigitChar c = true)
    (hfrac : frac = [] ∨ ∃ fs, frac = '.' :: fs ∧ fs ≠ [] ∧ ∀ c ∈ fs, isDigitChar c = true)
    (hws : ∀ c ∈ ws, isSpaceChar c = true)
    (hus : ∀ c ∈ us, isUnitChar c = true) :
    parseLine (sign ++ (ds ++ (frac ++ (ws ++ us)))) =
      some ⟨sign ++ (ds ++ frac), us, sign ++ (ds ++ (frac ++ (ws ++ us)))⟩ := by
  have hm := matchAt_structured hsign hds hdall hfrac hws hus
  have hne : sign ++ (ds ++ (frac ++ (ws ++ us))) ≠ [] := by
    obtain ⟨d, dt, rfl⟩ := List.exists_cons_of_ne_nil hds
    rcases hsign with rfl | rfl | rfl <;> simp
  simp only [parseLine, reSearch_of_matchAt hne hm]

/-- C3, witness: the line `+12.5 kg` parses to numeric text `+12.5`, unit
`kg`, raw `+12.5 kg`. -/
theorem C3_valid_line_parses_exactly_witness :
    parseLine ("+12.5 kg".data) =
      some ⟨"+12.5".data, "kg".data, "+12.5 kg".data⟩ := by
  have h := C3_valid_line_parses_exactly ['+'] ['1', '2'] ['.', '5'] [' '] ['k', 'g']
    (by simp) (by simp) (by decide)
    (Or.inr ⟨['5'], rfl, by simp, by decide⟩) (by decide) (by decide)
  simpa using h

theorem reSearch_leftmost {s : List Char} {g : List Char × List Char}
    (h : reSearch s = some g) :
    ∃ i, matchAt (s.drop i) = some g ∧ ∀ j < i, matchAt (s.drop j) = none := by
  induction s with
  | nil => simp [reSearch] at h
  | cons c rest ih =>
    rw [reSearch] at h
    cases hm : matchAt (c :: rest) with
    | some g2 =>
      rw [hm] at h
      injection h with he
      subst he
      exact ⟨0, by simpa using hm, fun j hj => absurd hj (Nat.not_lt_zero j)⟩
    | none =>
      rw [hm] at h
      obtain ⟨i, hi, hlt⟩ := ih h
      refine ⟨i + 1, by simpa using hi, ?_⟩
      intro j hj
      cases j with
      | zero => simpa using hm
      | succ k =>
        rw [List.drop_succ_cons]
        exact hlt k (Nat.lt_of_succ_lt_succ hj)

/-- C4: the pattern is applied with a substring search, so every decoded
line that contains a digit anywhere produces a Reading; in particular
`ERROR 404` yields the Reading `404` (first numeric substring, empty unit)
and `N/A 3` yields `3`, even though neither line as a whole is a
numeric-plus-optional-unit string. -/
theorem C4_substring_search_matches (s : List Char)
    (hd : ∃ c ∈ s, isDigitChar c = true) :
    (processDecoded s).isSome = true ∧
    (∀ t r, parseLine t = some r →
      ∃ i, matchAt (t.drop i) = some (r.w, r.u) ∧ ∀ j < i, matchAt (t.drop j) = none) ∧
    processDecoded ("ERROR 404".data) = some ⟨"404".data, [], "ERROR 404".data⟩ ∧
    processDecoded ("N/A 3".data) = some ⟨"3".data, [], "N/A 3".data⟩ := by
  refine ⟨?_, ?_, by decide, by decide⟩
  case refine_2 =>
    intro t r hr
    simp only [parseLine] at hr
    cases hs : reSearch t with
    | none => rw [hs] at hr; cases hr
    | some g =>
      rw [hs] at hr
      obtain ⟨w, u⟩ := g
      injection hr with he
      subst he
      exact reSearch_leftmost hs
  case refine_1 =>
  obtain ⟨c, hc, hcd⟩ := hd
  have hcs : isSpaceChar c = false := by
    cases hsp : isSpaceChar c with
    | false => rfl
    | true => rw [space_not_digit hsp] at hcd; cases hcd
  have hmem := mem_pyStrip hc hcs
  have hne : pyStrip s ≠ [] := List.ne_nil_of_mem hmem
  have hsearch := reSearch_isSome_of_digit ⟨c, hmem, hcd⟩
  obtain ⟨g, hg⟩ := Option.isSome_iff_exists.mp hsearch
  simp only [processDecoded, if_neg hne, parseLine, hg]
  cases g
  rfl

/-- C4, witness: the line `ERROR 404` contains a digit and indeed yields a
Reading. -/
theorem C4_substring_search_matches_witness :
    (processDecoded ("ERROR 404".data)).isSome = true :=
  (C4_substring_search_matches ("ERROR 404".data) ⟨'4', by decide, by decide⟩).1

/-- C5: with change-only reporting enabled and no prior `last_weight`, a run
of poll cycles whose selected (last) readings all carry the same numeric
text emits exactly one report — the first cycle's selected reading — and
nothing for the later cycles. -/
theorem C5_change_only_idempotence (c0 : List Reading) (rest : List (List Reading))
    (r0 : Reading) (h0 : c0.getLast? = some r0)
    (hrest : ∀ c ∈ rest, ∃ r, c.getLast? = some r ∧ r.w = r0.w) :
    (runPoller true none (c0 :: rest)).2 = [r0] := by
  have hstep : stepCycle true none c0 = (some r0.w, [r0]) := by
    simp only [stepCycle, h0]
    rw [if_pos (Or.inr (by simp))]
  have hsteady := runPoller_steady r0.w rest (fun c hc r hr => by
    obtain ⟨r', hr', hw⟩ := hrest c hc
    have he := hr.symm.trans hr'
    injection he with e
    rw [e]
    exact hw)
  simp [runPoller, hstep, hsteady]

/-- C5, witness: two cycles both reading `5` emit a single report. -/
theorem C5_change_only_idempotence_witness :
    (runPoller true none [[⟨['5'], [], ['5']⟩], [⟨['5'], [], ['5']⟩]]).2 =
      [⟨['5'], [], ['5']⟩] :=
  C5_change_only_idempotence [⟨['5'], [], ['5']⟩] [[⟨['5'], [], ['5']⟩]]
    ⟨['5'], [], ['5']⟩ (by decide)
    (fun c hc => by
      simp only [List.mem_singleton] at hc
      subst hc
      exact ⟨⟨['5'], [], ['5']⟩, by decide, rfl⟩)

/-- C6: along any run started with no prior `last_weight`, each cycle of the
trace satisfies: once `last_weight` is set it stays set; when it changes, a
report was emitted in that cycle and the new text differs from the old; and
when no report is emitted it is left untouched. -/
theorem C6_last_weight_invariant (cycles : List (List Reading))
    (entry : Option (List Char) × List Reading × Option (List Char))
    (hmem : entry ∈ pollTrace true none cycles) :
    (entry.1 ≠ none → entry.2.2 ≠ none) ∧
    (entry.2.2 ≠ entry.1 →
      entry.2.1 ≠ [] ∧ ∀ v v', entry.1 = some v → entry.2.2 = some v' → v' ≠ v) ∧
    (entry.2.1 = [] → entry.2.2 = entry.1) :=
  pollTrace_invariant cycles none entry hmem

/-- C6, witness: in the run `[[5-reading], []]`, the second cycle starts
with `last_weight = 5` and keeps it set. -/
theorem C6_last_weight_invariant_witness :
    (some ['5'] : Option (List Char)) ≠ none :=
  (C6_last_weight_invariant [[⟨['5'], [], ['5']⟩], []]
      (some ['5'], [], some ['5']) (by decide)).1 (by simp)

/-- C7, counterexample: a line whose bytes are partly undecodable can still
produce a Reading, contrary to the claim — the line `[0xFF, 0x35]` has an
undecodable first byte, yet after `decode(errors="ignore")` drops it the
remaining text `5` matches the pattern and a Reading is appended. -/
theorem C7_counterexample :
    processRawLine [0xFF, 0x35] = some ⟨['5'], [], ['5']⟩ := by decide

/-- C7, amended: for every input line read during a window that is an empty
read, or decodes and trims to the empty text (wholly undecodable lines
included), or whose decoded text contains no digit (hence no recognizable
numeric pattern), `read_window` produces no Reading for that line, raises
no error, and continues with the remaining reads of the window. -/
theorem C7_skip_unusable_lines (bs : List Nat) (rest : List (List Nat))
    (h : bs = [] ∨ pyStrip (decodeIgnore bs) = [] ∨
      ∀ c ∈ decodeIgnore bs, isDigitChar c = false) :
    processRawLine bs = none ∧ readWindow (bs :: rest) = readWindow rest := by
  have hnone : processRawLine bs = none := by
    by_cases hbs : bs = []
    · subst hbs; rfl
    · rcases h with rfl | h | h
      · exact absurd rfl hbs
      · simp [processRawLine, if_neg hbs, processDecoded, h]
      · simp only [processRawLine, if_neg hbs, processDecoded]
        by_cases hst : pyStrip (decodeIgnore bs) = []
        · rw [if_pos hst]
        · rw [if_neg hst]
          have hnd : ∀ c ∈ pyStrip (decodeIgnore bs), isDigitChar c = false :=
            fun c hc => h c (mem_of_mem_pyStrip hc)
          simp [parseLine, reSearch_none_of_no_digit hnd]
  exact ⟨hnone, by simp [readWindow, List.filterMap_cons, hnone]⟩

/-- C7, witness: an empty read yields no Reading and the window goes on. -/
theorem C7_skip_unusable_lines_witness :
    processRawLine [] = none ∧ readWindow [[]] = readWindow [] :=
  C7_skip_unusable_lines [] [] (Or.inl rfl)

/-- C8: in every poll cycle, an empty reading sequence emits nothing and
leaves `last_weight` unchanged; a non-empty sequence can only emit its last
reading (in arrival order); and with change-only reporting disabled a
report is emitted whenever any reading exists. -/
theorem C8_cycle_selection (flag : Bool) (last : Option (List Char)) (rs : List Reading) :
    (rs = [] → stepCycle flag last rs = (last, [])) ∧
    (∀ r, rs.getLast? = some r →
      (stepCycle flag last rs).2 = [] ∨ (stepCycle flag last rs).2 = [r]) ∧
    (flag = false → rs ≠ [] → (stepCycle flag last rs).2 ≠ []) := by
  refine ⟨?_, ?_, ?_⟩
  · rintro rfl; exact stepCycle_nil flag last
  · intro r h
    simp only [stepCycle, h]
    split
    · right; rfl
    · left; rfl
  · rintro rfl hne
    obtain ⟨r, hr⟩ := Option.isSome_iff_exists.mp (List.getLast?_isSome.mpr hne)
    simp only [stepCycle, hr]
    rw [if_pos (Or.inl (by simp))]
    simp

/-- C8, witness: an empty cycle changes nothing; a one-reading cycle can
only report that reading; with the policy off it does report it. -/
theorem C8_cycle_selection_witness :
    stepCycle true none [] = (none, []) ∧
    ((stepCycle true none [⟨['5'], [], ['5']⟩]).2 = [] ∨
      (stepCycle true none [⟨['5'], [], ['5']⟩]).2 = [⟨['5'], [], ['5']⟩]) ∧
    (stepCycle false none [⟨['5'], [], ['5']⟩]).2 ≠ [] :=
  ⟨(C8_cycle_selection true none []).1 rfl,
   (C8_cycle_selection true none [⟨['5'], [], ['5']⟩]).2.1 ⟨['5'], [], ['5']⟩ (by decide),
   (C8_cycle_selection false none [⟨['5'], [], ['5']⟩]).2.2 rfl (by simp)⟩
